import Mathlib

/-!
Verification of the geomloss label-transfer example
(`geomloss/examples/optimal_transport/plot_optimal_transport_labels.py`)
against its natural-language specification.

The file embeds, over the real numbers:
  * the pairwise ground cost `C(x,y) = (1/p) ‖x-y‖₂ᵖ` (CostMetric);
  * the KeOps reduction built by `generic_sum` with the formula
    `Exp( (F_i + G_j - IntInv(2)*SqDist(X_i,Y_j)) / E ) * L_j`,
    together with the two call sites that divide the result by `M`;
  * the Sinkhorn softmin fixed-point equations and the dual OT value,
    modelled from the spec (the solver itself lives in the geomloss
    library, outside the example file);
  * list-based softmin / weighted-sum reductions used to state the
    permutation- and tiling-invariance properties;
  * a proof that the Gaussian kernel is positive semidefinite on finite
    point configurations, from which the nonnegativity of the debiased
    Sinkhorn divergence follows.
-/

namespace GeomLoss

open scoped Nat

/-- Points of the example are 2-dimensional (`Vi(2)` / `Vj(2)` in the source). -/
abbrev Point : Type := ℝ × ℝ

/-- Squared Euclidean distance between two 2d points: the `SqDist(X_i,Y_j)`
symbol of the KeOps formula. -/
def sqDist (x y : Point) : ℝ :=
  (x.1 - y.1) ^ 2 + (x.2 - y.2) ^ 2

/-- The ground cost of the spec: `C(x,y) = (1/p) ‖x-y‖₂ᵖ`, with a real
exponent `p` (default 2 in the source). -/
noncomputable def CostMetric (p : ℝ) (x y : Point) : ℝ :=
  p⁻¹ * Real.sqrt (sqDist x y) ^ p

/-- The pointwise term of the KeOps formula from the source, verbatim:
`Exp( (F_i + G_j - IntInv(2)*SqDist(X_i,Y_j)) / E ) * L_j`, producing one
3-vector per pair `(i,j)`. -/
noncomputable def transferFormula (E : ℝ) (x y : Point) (Fi Gj : ℝ)
    (Lj : Fin 3 → ℝ) : Fin 3 → ℝ :=
  fun k => Real.exp ((Fi + Gj - (2 : ℝ)⁻¹ * sqDist x y) / E) * Lj k

/-- The `generic_sum` reduction of the source: for every row `i`, the sum of
the formula over all columns `j` (output `Lab = Vi(3)`). -/
noncomputable def generic_sum {N M : ℕ} (E : ℝ) (X : Fin N → Point)
    (Y : Fin M → Point) (F : Fin N → ℝ) (G : Fin M → ℝ)
    (L : Fin M → Fin 3 → ℝ) : Fin N → Fin 3 → ℝ :=
  fun i k => ∑ j, transferFormula E (X i) (Y j) (F i) (G j) (L j) k

/-- The `blur` parameter of the source (`blur = .05`). -/
noncomputable def blurParam : ℝ := 0.05

/-- The temperature map of the spec: `ε = blur^p`. -/
noncomputable def epsOf (blur p : ℝ) : ℝ := blur ^ p

/-- The balanced call site of the source, verbatim
(`labels_i = transfer(torch.Tensor([blur**2]), X_i, Y_j, F_i, G_j, l_j) / M`). -/
noncomputable def labelsBalanced {N M : ℕ} (X : Fin N → Point)
    (Y : Fin M → Point) (F : Fin N → ℝ) (G : Fin M → ℝ)
    (l : Fin M → Fin 3 → ℝ) : Fin N → Fin 3 → ℝ :=
  fun i k => generic_sum (blurParam ^ 2) X Y F G l i k / M

/-- The unbalanced call site of the source, verbatim: same kernel, same
temperature `blur**2`, applied to the potentials returned by the
`reach=.2` solver run. -/
noncomputable def labelsUnbalanced {N M : ℕ} (X : Fin N → Point)
    (Y : Fin M → Point) (F : Fin N → ℝ) (G : Fin M → ℝ)
    (l : Fin M → Fin 3 → ℝ) : Fin N → Fin 3 → ℝ :=
  fun i k => generic_sum (blurParam ^ 2) X Y F G l i k / M

theorem sqDist_nonneg (x y : Point) : 0 ≤ sqDist x y := by
  have h1 : (0 : ℝ) ≤ (x.1 - y.1) ^ 2 := sq_nonneg _
  have h2 : (0 : ℝ) ≤ (x.2 - y.2) ^ 2 := sq_nonneg _
  simpa [sqDist] using add_nonneg h1 h2

theorem sqDist_comm (x y : Point) : sqDist x y = sqDist y x := by
  simp [sqDist]; ring

/-- Specialization of the cost at `p = 2`: half the squared distance. -/
theorem CostMetric_two (x y : Point) :
    CostMetric 2 x y = 2⁻¹ * sqDist x y := by
  have h : Real.sqrt (sqDist x y) ^ (2 : ℝ) = sqDist x y := by
    rw [Real.rpow_two, sq, Real.mul_self_sqrt (sqDist_nonneg x y)]
  simp [CostMetric, h]

/-- C3: for every pair of points and the default exponent `p = 2`, the
cost is exactly half the squared Euclidean distance, and the specialized
squared-distance path used by the source formula
(`IntInv(2)*SqDist(X_i,Y_j)`) computes exactly this cost. -/
theorem cost_p2_is_half_sqdist :
    (∀ x y : Point, CostMetric 2 x y = 2⁻¹ * sqDist x y) ∧
    (∀ (E : ℝ) (x y : Point) (Fi Gj : ℝ) (Lj : Fin 3 → ℝ) (k : Fin 3),
      transferFormula E x y Fi Gj Lj k =
        Real.exp ((Fi + Gj - CostMetric 2 x y) / E) * Lj k) := by
  refine ⟨fun x y => CostMetric_two x y, fun E x y Fi Gj Lj k => ?_⟩
  rw [transferFormula, CostMetric_two]

/-- C1: for every temperature `ε > 0`, point clouds, potentials and
attribute field, each row of the transfer call equals
`(1/M) · Σ_j exp((f_i + g_j − C(x_i,y_j))/ε) · L_j` with `C` the
`p = 2` CostMetric. -/
theorem transfer_rows_eq_weighted_sum {N M : ℕ} (E : ℝ) (hE : 0 < E)
    (X : Fin N → Point) (Y : Fin M → Point) (F : Fin N → ℝ)
    (G : Fin M → ℝ) (L : Fin M → Fin 3 → ℝ) (i : Fin N) (k : Fin 3) :
    (fun i k => generic_sum E X Y F G L i k / M) i k =
      (M : ℝ)⁻¹ *
        ∑ j, Real.exp ((F i + G j - CostMetric 2 (X i) (Y j)) / E) * L j k := by
  have hterm : ∀ j, transferFormula E (X i) (Y j) (F i) (G j) (L j) k =
      Real.exp ((F i + G j - CostMetric 2 (X i) (Y j)) / E) * L j k := by
    intro j
    rw [transferFormula, CostMetric_two]
  simp only [generic_sum]
  rw [Finset.sum_congr rfl (fun j _ => hterm j), div_eq_inv_mul]

/-- Witness for C1 at a concrete input. -/
theorem transfer_rows_eq_weighted_sum_witness :
    (0:ℝ) < 1 ∧
    (fun (i : Fin 1) (k : Fin 3) =>
        generic_sum 1 (fun _ : Fin 1 => ((0:ℝ), (0:ℝ)))
          (fun _ : Fin 1 => ((0:ℝ), (0:ℝ))) (fun _ => 0) (fun _ => 0)
          (fun _ _ => 1) i k / (1 : ℕ)) 0 0 =
      ((1 : ℕ) : ℝ)⁻¹ *
        ∑ j : Fin 1, Real.exp
          ((0 + 0 - CostMetric 2 ((0:ℝ), (0:ℝ)) ((0:ℝ), (0:ℝ))) / 1) * 1 := by
  constructor
  · norm_num
  · have h := transfer_rows_eq_weighted_sum (N := 1) (M := 1) 1 (by norm_num)
      (fun _ => ((0:ℝ), (0:ℝ))) (fun _ => ((0:ℝ), (0:ℝ))) (fun _ => 0)
      (fun _ => 0) (fun _ _ => 1) 0 0
    simpa using h

/-- C4: the temperature passed at both call sites is `blur^2 = epsOf blur 2`,
with `blur = 0.05`. -/
theorem transfer_temperature_is_blur_sq :
    (∀ {N M : ℕ} (X : Fin N → Point) (Y : Fin M → Point) (F : Fin N → ℝ)
        (G : Fin M → ℝ) (l : Fin M → Fin 3 → ℝ),
      labelsBalanced X Y F G l =
        fun i k => generic_sum (epsOf blurParam 2) X Y F G l i k / M) ∧
    (∀ {N M : ℕ} (X : Fin N → Point) (Y : Fin M → Point) (F : Fin N → ℝ)
        (G : Fin M → ℝ) (l : Fin M → Fin 3 → ℝ),
      labelsUnbalanced X Y F G l =
        fun i k => generic_sum (epsOf blurParam 2) X Y F G l i k / M) ∧
    blurParam = 0.05 := by
  have he : epsOf blurParam 2 = blurParam ^ 2 := by
    have := Real.rpow_two blurParam
    simpa [epsOf] using this
  exact ⟨fun X Y F G l => by rw [he]; rfl,
         fun X Y F G l => by rw [he]; rfl, rfl⟩

/-- Modelled from the spec: the solver's softmin reduction (the SinkhornSolver
lives in the geomloss library, outside the example file). For a row at point
`x`, over a cloud `Y` with column weights `b` and potential `g`:
`softmin(x) = −ε·log( Σ_j exp((g_j − C(x,y_j))/ε) · b_j )`, with the `p = 2`
cost of the example. -/
noncomputable def softminRow {M : ℕ} (p E : ℝ) (Y : Fin M → Point)
    (b : Fin M → ℝ) (g : Fin M → ℝ) (x : Point) : ℝ :=
  -E * Real.log (∑ j, Real.exp ((g j - CostMetric p x (Y j)) / E) * b j)

/-- At a softmin fixed point, the Gibbs-kernel row mass is exactly 1:
`Σ_j exp((f_x + g_j − C(x,y_j))/ε) · b_j = 1`. -/
theorem softmin_marginal {M : ℕ} (hM : 0 < M) (E : ℝ) (hE : 0 < E)
    (Y : Fin M → Point) (b g : Fin M → ℝ) (hb : ∀ j, 0 < b j) (x : Point)
    (fx : ℝ) (hfx : fx = softminRow 2 E Y b g x) :
    ∑ j, Real.exp ((fx + g j - CostMetric 2 x (Y j)) / E) * b j = 1 := by
  have : Nonempty (Fin M) := ⟨⟨0, hM⟩⟩
  set S : ℝ := ∑ j, Real.exp ((g j - CostMetric 2 x (Y j)) / E) * b j with hS
  have hSpos : 0 < S :=
    Finset.sum_pos (fun j _ => mul_pos (Real.exp_pos _) (hb j))
      Finset.univ_nonempty
  have hfxdiv : fx / E = -Real.log S := by
    rw [hfx, softminRow, ← hS]
    field_simp
    ring
  have hsplit : ∀ j, Real.exp ((fx + g j - CostMetric 2 x (Y j)) / E) =
      S⁻¹ * Real.exp ((g j - CostMetric 2 x (Y j)) / E) := by
    intro j
    have harg : (fx + g j - CostMetric 2 x (Y j)) / E =
        fx / E + (g j - CostMetric 2 x (Y j)) / E := by ring
    rw [harg, Real.exp_add, hfxdiv, Real.exp_neg, Real.exp_log hSpos]
  calc ∑ j, Real.exp ((fx + g j - CostMetric 2 x (Y j)) / E) * b j
      = ∑ j, S⁻¹ * (Real.exp ((g j - CostMetric 2 x (Y j)) / E) * b j) := by
        refine Finset.sum_congr rfl fun j _ => ?_
        rw [hsplit j, mul_assoc]
    _ = S⁻¹ * S := by rw [← Finset.mul_sum, hS]
    _ = 1 := inv_mul_cancel₀ (ne_of_gt hSpos)

/-- C2: in the balanced run (uniform weights `1/M`, converged softmin fixed
point at temperature `blur²`), when every label vector sums to 1, every row
of the transferred attribute field sums to exactly 1. -/
theorem balanced_rows_sum_to_one {N M : ℕ} (hM : 0 < M)
    (X : Fin N → Point) (Y : Fin M → Point) (F : Fin N → ℝ) (G : Fin M → ℝ)
    (l : Fin M → Fin 3 → ℝ)
    (hfix : ∀ i, F i = softminRow 2 (blurParam ^ 2) Y (fun _ => (M : ℝ)⁻¹) G (X i))
    (hl : ∀ j, ∑ k, l j k = 1) (i : Fin N) :
    ∑ k, labelsBalanced X Y F G l i k = 1 := by
  have hblur : (0:ℝ) < blurParam ^ 2 := by
    have : (0:ℝ) < blurParam := by norm_num [blurParam]
    positivity
  have hMinv : ∀ j : Fin M, (0:ℝ) < (fun _ : Fin M => (M : ℝ)⁻¹) j := by
    intro j
    have : (0:ℝ) < (M : ℝ) := by exact_mod_cast hM
    positivity
  set E : ℝ := blurParam ^ 2 with hEdef
  have hcost : ∀ j, transferFormula E (X i) (Y j) (F i) (G j) (l j) =
      fun k => Real.exp ((F i + G j - CostMetric 2 (X i) (Y j)) / E) * l j k := by
    intro j
    funext k
    rw [transferFormula, CostMetric_two]
  have hmarg := softmin_marginal hM E hblur Y (fun _ => (M : ℝ)⁻¹) G hMinv
      (X i) (F i) (hfix i)
  calc ∑ k, labelsBalanced X Y F G l i k
      = (∑ k, ∑ j, Real.exp ((F i + G j - CostMetric 2 (X i) (Y j)) / E)
          * l j k) / M := by
        simp only [labelsBalanced, generic_sum, ← hEdef]
        rw [← Finset.sum_div]
        congr 1
        refine Finset.sum_congr rfl fun k _ => ?_
        refine Finset.sum_congr rfl fun j _ => ?_
        rw [hcost j]
    _ = (∑ j, Real.exp ((F i + G j - CostMetric 2 (X i) (Y j)) / E)
          * ∑ k, l j k) / M := by
        rw [Finset.sum_comm]
        congr 1
        exact Finset.sum_congr rfl fun j _ => (Finset.mul_sum _ _ _).symm
    _ = (∑ j, Real.exp ((F i + G j - CostMetric 2 (X i) (Y j)) / E)) / M := by
        congr 1
        exact Finset.sum_congr rfl fun j _ => by rw [hl j, mul_one]
    _ = ∑ j, Real.exp ((F i + G j - CostMetric 2 (X i) (Y j)) / E)
          * (M : ℝ)⁻¹ := by
        rw [Finset.sum_div]
        exact Finset.sum_congr rfl fun j _ => div_eq_mul_inv _ _
    _ = 1 := hmarg

/-- Witness for C2 at a concrete one-point configuration. -/
theorem balanced_rows_sum_to_one_witness :
    0 < 1 ∧
    ∑ k, labelsBalanced (fun _ : Fin 1 => ((0:ℝ), (0:ℝ)))
        (fun _ : Fin 1 => ((0:ℝ), (0:ℝ))) (fun _ => 0) (fun _ => 0)
        (fun _ k => if k = 0 then 1 else 0) 0 k = 1 := by
  refine ⟨Nat.one_pos, ?_⟩
  have hfix : ∀ i : Fin 1, (fun _ : Fin 1 => (0:ℝ)) i =
      softminRow 2 (blurParam ^ 2) (fun _ : Fin 1 => ((0:ℝ), (0:ℝ)))
        (fun _ => ((1:ℕ) : ℝ)⁻¹) (fun _ => 0) ((fun _ : Fin 1 => ((0:ℝ), (0:ℝ))) i) := by
    intro i
    simp [softminRow, CostMetric, sqDist, Real.zero_rpow]
  have hl : ∀ j : Fin 1, ∑ k : Fin 3,
      (fun (_ : Fin 1) (k : Fin 3) => if k = 0 then (1:ℝ) else 0) j k = 1 := by
    intro j
    simp [Fin.sum_univ_three]
  exact balanced_rows_sum_to_one Nat.one_pos _ _ _ _ _ hfix hl 0

/-- C10: the transfer reduction is a pure function of its inputs (equal
inputs give equal outputs), and the unbalanced call site is literally the
same function of the potentials as the balanced one — the `reach` parameter
can influence the transferred labels only through `f` and `g`. -/
theorem transfer_pure_and_reach_only_via_potentials :
    (∀ (N M : ℕ) (E E' : ℝ) (X X' : Fin N → Point) (Y Y' : Fin M → Point)
        (F F' : Fin N → ℝ) (G G' : Fin M → ℝ) (L L' : Fin M → Fin 3 → ℝ),
      E = E' → X = X' → Y = Y' → F = F' → G = G' → L = L' →
      generic_sum E X Y F G L = generic_sum E' X' Y' F' G' L') ∧
    (∀ (N M : ℕ) (X : Fin N → Point) (Y : Fin M → Point) (F : Fin N → ℝ)
        (G : Fin M → ℝ) (l : Fin M → Fin 3 → ℝ),
      labelsUnbalanced X Y F G l = labelsBalanced X Y F G l) := by
  constructor
  · intro N M E E' X X' Y Y' F F' G G' L L' hE hX hY hF hG hL
    subst hE; subst hX; subst hY; subst hF; subst hG; subst hL; rfl
  · intro N M X Y F G l; rfl

/-- Witness for C10 at concrete equal inputs. -/
theorem transfer_pure_witness :
    generic_sum (N := 1) (M := 1) 1 (fun _ : Fin 1 => ((0:ℝ), (0:ℝ)))
        (fun _ : Fin 1 => ((0:ℝ), (0:ℝ))) (fun _ : Fin 1 => (0:ℝ))
        (fun _ : Fin 1 => (0:ℝ)) (fun _ : Fin 1 => fun _ : Fin 3 => (1:ℝ)) =
      generic_sum 1 (fun _ : Fin 1 => ((0:ℝ), (0:ℝ)))
        (fun _ : Fin 1 => ((0:ℝ), (0:ℝ))) (fun _ : Fin 1 => (0:ℝ))
        (fun _ : Fin 1 => (0:ℝ)) (fun _ : Fin 1 => fun _ : Fin 3 => (1:ℝ)) ∧
    labelsUnbalanced (N := 1) (M := 1) (fun _ : Fin 1 => ((0:ℝ), (0:ℝ)))
        (fun _ : Fin 1 => ((0:ℝ), (0:ℝ))) (fun _ : Fin 1 => (0:ℝ))
        (fun _ : Fin 1 => (0:ℝ)) (fun _ : Fin 1 => fun _ : Fin 3 => (1:ℝ)) =
      labelsBalanced (fun _ : Fin 1 => ((0:ℝ), (0:ℝ)))
        (fun _ : Fin 1 => ((0:ℝ), (0:ℝ))) (fun _ : Fin 1 => (0:ℝ))
        (fun _ : Fin 1 => (0:ℝ)) (fun _ : Fin 1 => fun _ : Fin 3 => (1:ℝ)) :=
  ⟨transfer_pure_and_reach_only_via_potentials.1 1 1 1 1 _ _ _ _ _ _ _ _ _ _
      rfl rfl rfl rfl rfl rfl,
   transfer_pure_and_reach_only_via_potentials.2 1 1 _ _ _ _ _⟩

/-- A point cloud of the data model: an ordered sequence of 2d points with a
probability weight per point. -/
structure PointCloud where
  n : ℕ
  pts : Fin n → Point
  w : Fin n → ℝ

/-- Error taxonomy of the spec. `DimensionMismatch` cannot arise in this
embedding (the point dimension is fixed at 2 by the types); it is kept for
completeness of the taxonomy. -/
inductive SolverError where
  | EmptyInput : SolverError
  | DimensionMismatch : SolverError
  | NumericOverflow : SolverError
deriving DecidableEq

/-- Result of a solver call: one dual potential per point of each cloud and
the convergence flag. -/
structure SolveResult (a b : PointCloud) where
  f : Fin a.n → ℝ
  g : Fin b.n → ℝ
  converged : Bool

/-- Modelled from the spec: the unbalanced damping factor
`reach² / (reach² + ε)`; an absent `reach` leaves the update undamped
(balanced OT). -/
noncomputable def damping (reach : Option ℝ) (E : ℝ) : ℝ :=
  match reach with
  | none => 1
  | some r => r ^ 2 / (r ^ 2 + E)

/-- Modelled from the spec: the coarse initial temperature scale, derived
from the spatial extent of the inputs. -/
noncomputable def spatialScale (a b : PointCloud) : ℝ :=
  ⨆ i, ⨆ j, Real.sqrt (sqDist (a.pts i) (b.pts j))

/-- Modelled from the spec: the epsilon-scaling schedule, a decreasing-then-
fixed sequence starting at the coarse value and clamped below at the target
temperature `blur^p`. -/
noncomputable def scheduleEps (E0 target scaling : ℝ) (k : ℕ) : ℝ :=
  max (E0 * scaling ^ k) target

/-- Modelled from the spec: the iteration cap of the solver loop. -/
def maxIter : ℕ := 100

/-- Modelled from the spec: the convergence tolerance on the potential
update magnitude. -/
noncomputable def solverTol : ℝ := 1 / 1000

/-- Modelled from the spec: one alternating (possibly damped) pair of
softmin updates at temperature `E`. -/
noncomputable def sinkhornStep (a b : PointCloud) (p E lam : ℝ)
    (fg : (Fin a.n → ℝ) × (Fin b.n → ℝ)) :
    (Fin a.n → ℝ) × (Fin b.n → ℝ) :=
  let f1 := fun i => lam * softminRow p E b.pts b.w fg.2 (a.pts i)
  let g1 := fun j => lam * softminRow p E a.pts a.w f1 (b.pts j)
  (f1, g1)

/-- Modelled from the spec: the Sinkhorn loop over the epsilon-scaling
schedule, starting from zero-initialized potentials. -/
noncomputable def sinkhornLoop (a b : PointCloud) (p blur scaling : ℝ)
    (reach : Option ℝ) : (Fin a.n → ℝ) × (Fin b.n → ℝ) :=
  let E0 := spatialScale a b ^ p
  let target := blur ^ p
  (List.range maxIter).foldl
    (fun fg k =>
      let E := scheduleEps E0 target scaling k
      sinkhornStep a b p E (damping reach E) fg)
    (fun _ => 0, fun _ => 0)

/-- Modelled from the spec: the public solver operation
`solve(α, β, p, blur, scaling, reach?, debias)`. Empty inputs are rejected
before any iteration starts; invalid `blur`/`scaling` configurations are
rejected at call time; otherwise the loop runs and the convergence flag
reports whether one extra update at the target temperature moves the
potentials by at most the tolerance. -/
noncomputable def solve (a b : PointCloud) (p blur scaling : ℝ)
    (reach : Option ℝ) (debias : Bool) :
    Except SolverError (SolveResult a b) :=
  if a.n = 0 ∨ b.n = 0 then
    Except.error SolverError.EmptyInput
  else if blur ≤ 0 ∨ scaling ≤ 0 ∨ 1 ≤ scaling then
    Except.error SolverError.NumericOverflow
  else
    let fg := sinkhornLoop a b p blur scaling reach
    let target := blur ^ p
    let fg1 := sinkhornStep a b p target (damping reach target) fg
    let conv :=
      if (∑ i, |fg1.1 i - fg.1 i|) + (∑ j, |fg1.2 j - fg.2 j|) ≤ solverTol
      then true else false
    Except.ok ⟨fg.1, fg.2, conv⟩

/-- C9: a solve call on which either cloud is empty fails with `EmptyInput`
and returns no (partial) result. -/
theorem solve_empty_input (a b : PointCloud) (p blur scaling : ℝ)
    (reach : Option ℝ) (debias : Bool) (h : a.n = 0 ∨ b.n = 0) :
    solve a b p blur scaling reach debias =
        Except.error SolverError.EmptyInput ∧
      ∀ r : SolveResult a b,
        solve a b p blur scaling reach debias ≠ Except.ok r := by
  have hmain : solve a b p blur scaling reach debias =
      Except.error SolverError.EmptyInput := by
    rw [solve, if_pos h]
  exact ⟨hmain, fun r hr => by rw [hmain] at hr; exact Except.noConfusion hr⟩

/-- Witness for C9: the empty cloud is rejected. -/
theorem solve_empty_input_witness :
    ((⟨0, Fin.elim0, Fin.elim0⟩ : PointCloud).n = 0 ∨
        (⟨1, fun _ => ((0:ℝ), (0:ℝ)), fun _ => (1:ℝ)⟩ : PointCloud).n = 0) ∧
      solve ⟨0, Fin.elim0, Fin.elim0⟩
          ⟨1, fun _ => ((0:ℝ), (0:ℝ)), fun _ => (1:ℝ)⟩ 2 (1/20) (9/10)
          none false =
        Except.error SolverError.EmptyInput :=
  ⟨Or.inl rfl,
   (solve_empty_input ⟨0, Fin.elim0, Fin.elim0⟩
      ⟨1, fun _ => ((0:ℝ), (0:ℝ)), fun _ => (1:ℝ)⟩ 2 (1/20) (9/10)
      none false (Or.inl rfl)).1⟩

/-- A column of a KernelReduction: a point of `β` together with its
per-column fields (potential value `g`, weight `b`, attribute vector `L`). -/
structure KCol where
  y : Point
  g : ℝ
  b : ℝ
  L : Fin 3 → ℝ

/-- One column term of the weighted-sum reduction (the label-transfer
formula of the source, at the `p = 2` cost). -/
noncomputable def wsumTerm (E : ℝ) (x : Point) (fi : ℝ) (c : KCol) :
    Fin 3 → ℝ :=
  fun k => Real.exp ((fi + c.g - CostMetric 2 x c.y) / E) * c.L k

/-- The weighted-sum reduction over an ordered list of columns. -/
noncomputable def wsumRed (E : ℝ) (x : Point) (fi : ℝ) (cols : List KCol) :
    Fin 3 → ℝ :=
  (cols.map (wsumTerm E x fi)).sum

/-- One column term of the softmin reduction. -/
noncomputable def softminTerm (E : ℝ) (x : Point) (c : KCol) : ℝ :=
  Real.exp ((c.g - CostMetric 2 x c.y) / E) * c.b

/-- The softmin reduction over an ordered list of columns. -/
noncomputable def softminList (E : ℝ) (x : Point) (cols : List KCol) : ℝ :=
  -E * Real.log ((cols.map (softminTerm E x)).sum)

/-- Accumulation of partial weighted-sum reductions over column tiles. -/
noncomputable def tiledWsum (E : ℝ) (x : Point) (fi : ℝ)
    (tiles : List (List KCol)) : Fin 3 → ℝ :=
  (tiles.map (wsumRed E x fi)).sum

/-- Accumulation of partial softmin reductions over column tiles: the tile
results are recombined through a log-sum-exp at the same temperature. -/
noncomputable def tiledSoftmin (E : ℝ) (x : Point)
    (tiles : List (List KCol)) : ℝ :=
  -E * Real.log ((tiles.map
    (fun t => Real.exp (-(softminList E x t) / E))).sum)

/-- C6: permuting the column order of `β`, or splitting `β` into nonempty
column tiles and accumulating the partial reductions, leaves both the
weighted-sum and the softmin KernelReduction results unchanged (exactly, in
real arithmetic). -/
theorem kernel_reduction_perm_and_tiling (E : ℝ) (hE : 0 < E) (x : Point)
    (fi : ℝ) (cols cols2 : List KCol) (tiles : List (List KCol))
    (hperm : cols2.Perm cols) (htile : tiles.flatten = cols)
    (hb : ∀ c ∈ cols, 0 < c.b) (hne : ∀ t ∈ tiles, t ≠ []) :
    wsumRed E x fi cols2 = wsumRed E x fi cols ∧
      softminList E x cols2 = softminList E x cols ∧
      tiledWsum E x fi tiles = wsumRed E x fi cols ∧
      tiledSoftmin E x tiles = softminList E x cols := by
  have hflatsum : ∀ {α : Type} [AddCommMonoid α] (f : KCol → α),
      ((tiles.flatten).map f).sum = (tiles.map fun t => (t.map f).sum).sum := by
    intro α _ f
    rw [List.map_flatten, List.sum_flatten, List.map_map]
    rfl
  refine ⟨?_, ?_, ?_, ?_⟩
  · exact ((hperm.map (wsumTerm E x fi)).sum_eq)
  · rw [softminList, softminList, (hperm.map (softminTerm E x)).sum_eq]
  · rw [tiledWsum, wsumRed, ← htile]
    exact (hflatsum (wsumTerm E x fi)).symm
  · have hSt : ∀ t ∈ tiles, 0 < ((t.map (softminTerm E x)).sum) := by
      intro t ht
      refine List.sum_pos _ (fun s hs => ?_) ?_
      · rcases List.mem_map.mp hs with ⟨c, hc, rfl⟩
        have hcc : c ∈ cols := htile ▸ List.mem_flatten.mpr ⟨t, ht, hc⟩
        exact mul_pos (Real.exp_pos _) (hb c hcc)
      · intro habs
        exact hne t ht (List.map_eq_nil_iff.mp habs)
    have hmap : tiles.map (fun t => Real.exp (-(softminList E x t) / E)) =
        tiles.map (fun t => (t.map (softminTerm E x)).sum) := by
      refine List.map_congr_left fun t ht => ?_
      have harg : -(softminList E x t) / E =
          Real.log ((t.map (softminTerm E x)).sum) := by
        rw [softminList]
        field_simp
      rw [harg, Real.exp_log (hSt t ht)]
    rw [tiledSoftmin, hmap, softminList, ← htile]
    rw [hflatsum (softminTerm E x)]

/-- Witness for C6 on a concrete two-column configuration. -/
theorem kernel_reduction_perm_and_tiling_witness :
    (0:ℝ) < 1 ∧
      tiledSoftmin 1 ((0:ℝ), (0:ℝ))
          [[⟨((0:ℝ), (0:ℝ)), 0, 1, fun _ => 1⟩],
           [⟨((1:ℝ), (0:ℝ)), 0, 1, fun _ => 0⟩]] =
        softminList 1 ((0:ℝ), (0:ℝ))
          [⟨((0:ℝ), (0:ℝ)), 0, 1, fun _ => 1⟩,
           ⟨((1:ℝ), (0:ℝ)), 0, 1, fun _ => 0⟩] := by
  have h := kernel_reduction_perm_and_tiling 1 (by norm_num) ((0:ℝ), (0:ℝ)) 0
    [⟨((0:ℝ), (0:ℝ)), 0, 1, fun _ => 1⟩, ⟨((1:ℝ), (0:ℝ)), 0, 1, fun _ => 0⟩]
    [⟨((1:ℝ), (0:ℝ)), 0, 1, fun _ => 0⟩, ⟨((0:ℝ), (0:ℝ)), 0, 1, fun _ => 1⟩]
    [[⟨((0:ℝ), (0:ℝ)), 0, 1, fun _ => 1⟩], [⟨((1:ℝ), (0:ℝ)), 0, 1, fun _ => 0⟩]]
    (List.Perm.swap _ _ _) rfl
    (by
      intro c hc
      rcases List.mem_cons.mp hc with h1 | h1
      · rw [h1]; norm_num
      · rcases List.mem_cons.mp h1 with h2 | h2
        · rw [h2]; norm_num
        · exact absurd h2 (List.not_mem_nil c))
    (by
      intro t ht
      rcases List.mem_cons.mp ht with h1 | h1
      · rw [h1]; simp
      · rcases List.mem_cons.mp h1 with h2 | h2
        · rw [h2]; simp
        · exact absurd h2 (List.not_mem_nil t))
  exact ⟨by norm_num, h.2.2.2⟩

/-- The dual objective value recovered from a pair of potentials:
`⟨α,f⟩ + ⟨β,g⟩` (weighted averages of the potentials). -/
noncomputable def OTdualValue {N M : ℕ} (aw : Fin N → ℝ) (f : Fin N → ℝ)
    (bw : Fin M → ℝ) (g : Fin M → ℝ) : ℝ :=
  ∑ i, aw i * f i + ∑ j, bw j * g j

theorem blurParam_sq : blurParam ^ 2 = 1 / 400 := by
  norm_num [blurParam]

/-- Softmin over a single unit-weight column is the cost minus the
potential. -/
theorem softminRow_single (p E : ℝ) (hE : E ≠ 0) (y : Point) (g0 : ℝ)
    (x : Point) :
    softminRow p E (fun _ : Fin 1 => y) (fun _ => 1) (fun _ => g0) x =
      CostMetric p x y - g0 := by
  rw [softminRow]
  rw [Fin.sum_univ_one, mul_one, Real.log_exp]
  field_simp
  ring

/-- C8: at `reach = 0.2`, `p = 2`, `blur = 0.05` on a concrete one-point
pair, the damped (unbalanced) fixed point produces transferred label rows
that do not sum to 1 and a dual OT value different from the balanced one,
while the balanced fixed point on the same data gives row sum exactly 1. -/
theorem unbalanced_rows_and_divergence_differ :
    ((8:ℝ)/33 = damping (some (1/5)) (blurParam ^ 2) *
        softminRow 2 (blurParam ^ 2) (fun _ : Fin 1 => ((1:ℝ), (0:ℝ)))
          (fun _ => 1) (fun _ => (8:ℝ)/33) ((0:ℝ), (0:ℝ))) ∧
      (∑ k, labelsUnbalanced (fun _ : Fin 1 => ((0:ℝ), (0:ℝ)))
          (fun _ : Fin 1 => ((1:ℝ), (0:ℝ))) (fun _ => (8:ℝ)/33)
          (fun _ => (8:ℝ)/33) (fun _ k => if k = 0 then 1 else 0) 0 k ≠ 1) ∧
      ((1:ℝ)/4 = softminRow 2 (blurParam ^ 2) (fun _ : Fin 1 => ((1:ℝ), (0:ℝ)))
          (fun _ => 1) (fun _ => (1:ℝ)/4) ((0:ℝ), (0:ℝ))) ∧
      (∑ k, labelsBalanced (fun _ : Fin 1 => ((0:ℝ), (0:ℝ)))
          (fun _ : Fin 1 => ((1:ℝ), (0:ℝ))) (fun _ => (1:ℝ)/4)
          (fun _ => (1:ℝ)/4) (fun _ k => if k = 0 then 1 else 0) 0 k = 1) ∧
      OTdualValue (fun _ : Fin 1 => (1:ℝ)) (fun _ => (8:ℝ)/33)
          (fun _ : Fin 1 => (1:ℝ)) (fun _ => (8:ℝ)/33) ≠
        OTdualValue (fun _ : Fin 1 => (1:ℝ)) (fun _ => (1:ℝ)/4)
          (fun _ : Fin 1 => (1:ℝ)) (fun _ => (1:ℝ)/4) := by
  have hE : (blurParam ^ 2) ≠ 0 := by rw [blurParam_sq]; norm_num
  have hcost : CostMetric 2 ((0:ℝ), (0:ℝ)) ((1:ℝ), (0:ℝ)) = 1/2 := by
    rw [CostMetric_two]
    norm_num [sqDist]
  have hrow : ∀ F G : Fin 1 → ℝ,
      ∑ k, (fun i k => generic_sum (blurParam ^ 2)
          (fun _ : Fin 1 => ((0:ℝ), (0:ℝ))) (fun _ : Fin 1 => ((1:ℝ), (0:ℝ)))
          F G (fun _ k => if k = 0 then (1:ℝ) else 0) i k / (1:ℕ)) 0 k =
        Real.exp ((F 0 + G 0 - 1/2) / (blurParam ^ 2)) := by
    intro F G
    simp only [generic_sum, transferFormula, Fin.sum_univ_one, Nat.cast_one,
      div_one]
    have hsq : (2:ℝ)⁻¹ * sqDist ((0:ℝ), (0:ℝ)) ((1:ℝ), (0:ℝ)) = 1/2 := by
      norm_num [sqDist]
    rw [hsq, ← Finset.mul_sum]
    have hone : ∑ k : Fin 3, (if k = (0 : Fin 3) then (1:ℝ) else 0) = 1 := by
      simp
    rw [hone, mul_one]
  refine ⟨?_, ?_, ?_, ?_, ?_⟩
  · rw [softminRow_single 2 _ hE _ _ _, hcost, damping, blurParam_sq]
    norm_num
  · have h : (∑ k, labelsUnbalanced (fun _ : Fin 1 => ((0:ℝ), (0:ℝ)))
        (fun _ : Fin 1 => ((1:ℝ), (0:ℝ))) (fun _ => (8:ℝ)/33)
        (fun _ => (8:ℝ)/33) (fun _ k => if k = 0 then 1 else 0) 0 k) =
        Real.exp (((8:ℝ)/33 + (8:ℝ)/33 - 1/2) / (blurParam ^ 2)) :=
      hrow (fun _ => (8:ℝ)/33) (fun _ => (8:ℝ)/33)
    rw [h, Ne, Real.exp_eq_one_iff, blurParam_sq]
    norm_num
  · rw [softminRow_single 2 _ hE _ _ _, hcost]
    norm_num
  · have h : (∑ k, labelsBalanced (fun _ : Fin 1 => ((0:ℝ), (0:ℝ)))
        (fun _ : Fin 1 => ((1:ℝ), (0:ℝ))) (fun _ => (1:ℝ)/4)
        (fun _ => (1:ℝ)/4) (fun _ k => if k = 0 then 1 else 0) 0 k) =
        Real.exp (((1:ℝ)/4 + (1:ℝ)/4 - 1/2) / (blurParam ^ 2)) :=
      hrow (fun _ => (1:ℝ)/4) (fun _ => (1:ℝ)/4)
    rw [h]
    norm_num [Real.exp_zero]
  · rw [OTdualValue, OTdualValue]
    simp only [Fin.sum_univ_one, one_mul]
    norm_num

/-- Euclidean inner product of two 2d points. -/
def dotP (x y : Point) : ℝ := x.1 * y.1 + x.2 * y.2

/-- Squared Euclidean norm of a 2d point. -/
def normSq (x : Point) : ℝ := x.1 ^ 2 + x.2 ^ 2

theorem sqDist_eq (x y : Point) :
    sqDist x y = normSq x + normSq y - 2 * dotP x y := by
  rw [sqDist, normSq, normSq, dotP]
  ring

/-- Powers of the inner-product kernel are positive semidefinite on any
finite point configuration (polarization through the binomial theorem). -/
theorem dot_pow_kernel_psd {I : Type} [Fintype I] (c : I → ℝ) (z : I → Point)
    (n : ℕ) :
    0 ≤ ∑ s, ∑ t, c s * c t * dotP (z s) (z t) ^ n := by
  have hterm : ∀ s t : I, c s * c t * dotP (z s) (z t) ^ n =
      ∑ k ∈ Finset.range (n + 1), (n.choose k : ℝ) *
        ((c s * (z s).1 ^ k * (z s).2 ^ (n - k)) *
          (c t * (z t).1 ^ k * (z t).2 ^ (n - k))) := by
    intro s t
    rw [dotP, add_pow, Finset.mul_sum]
    refine Finset.sum_congr rfl fun k _ => ?_
    rw [mul_pow, mul_pow]
    ring
  calc (0:ℝ)
      ≤ ∑ k ∈ Finset.range (n + 1), (n.choose k : ℝ) *
          ((∑ s, c s * (z s).1 ^ k * (z s).2 ^ (n - k)) *
            (∑ t, c t * (z t).1 ^ k * (z t).2 ^ (n - k))) := by
        refine Finset.sum_nonneg fun k _ => ?_
        exact mul_nonneg (Nat.cast_nonneg _) (mul_self_nonneg _)
    _ = ∑ k ∈ Finset.range (n + 1), ∑ s, ∑ t, (n.choose k : ℝ) *
          ((c s * (z s).1 ^ k * (z s).2 ^ (n - k)) *
            (c t * (z t).1 ^ k * (z t).2 ^ (n - k))) := by
        refine Finset.sum_congr rfl fun k _ => ?_
        rw [Finset.sum_mul_sum, Finset.mul_sum]
        refine Finset.sum_congr rfl fun s _ => ?_
        rw [Finset.mul_sum]
    _ = ∑ s, ∑ k ∈ Finset.range (n + 1), ∑ t, (n.choose k : ℝ) *
          ((c s * (z s).1 ^ k * (z s).2 ^ (n - k)) *
            (c t * (z t).1 ^ k * (z t).2 ^ (n - k))) := Finset.sum_comm
    _ = ∑ s, ∑ t, c s * c t * dotP (z s) (z t) ^ n := by
        refine Finset.sum_congr rfl fun s _ => ?_
        rw [Finset.sum_comm]
        exact Finset.sum_congr rfl fun t _ => (hterm s t).symm

/-- The exponential inner-product kernel `exp(r·⟨x,y⟩)`, `r ≥ 0`, is positive
semidefinite: expand the exponential series and use term-wise psd-ness. -/
theorem exp_dot_kernel_psd {I : Type} [Fintype I] (c : I → ℝ) (z : I → Point)
    (r : ℝ) (hr : 0 ≤ r) :
    0 ≤ ∑ s, ∑ t, c s * c t * Real.exp (r * dotP (z s) (z t)) := by
  have hexp : ∀ x : ℝ, Real.exp x = tsum (fun n : ℕ => x ^ n / n !) := by
    intro x
    rw [Real.exp_eq_exp_ℝ, NormedSpace.exp_eq_tsum_div]
  have hsumm : ∀ s t : I, Summable (fun n : ℕ =>
      c s * c t * ((r * dotP (z s) (z t)) ^ n / n !)) := fun s t =>
    (Real.summable_pow_div_factorial _).mul_left _
  have hrw : ∑ s, ∑ t, c s * c t * Real.exp (r * dotP (z s) (z t)) =
      tsum (fun n : ℕ =>
        ∑ s, ∑ t, c s * c t * ((r * dotP (z s) (z t)) ^ n / n !)) := by
    rw [tsum_sum (fun s _ => summable_sum (fun t _ => hsumm s t))]
    refine Finset.sum_congr rfl fun s _ => ?_
    rw [tsum_sum (fun t _ => hsumm s t)]
    refine Finset.sum_congr rfl fun t _ => ?_
    rw [tsum_mul_left, ← hexp]
  rw [hrw]
  refine tsum_nonneg fun n => ?_
  have hpt : ∀ s t : I, c s * c t * ((r * dotP (z s) (z t)) ^ n / n !) =
      (r ^ n / (n ! : ℝ)) * (c s * c t * dotP (z s) (z t) ^ n) := by
    intro s t; rw [mul_pow]; ring
  calc (0:ℝ)
      ≤ (r ^ n / (n ! : ℝ)) * ∑ s, ∑ t, c s * c t * dotP (z s) (z t) ^ n :=
        mul_nonneg (div_nonneg (pow_nonneg hr n) (Nat.cast_nonneg _))
          (dot_pow_kernel_psd c z n)
    _ = ∑ s, ∑ t, c s * c t * ((r * dotP (z s) (z t)) ^ n / n !) := by
        rw [Finset.mul_sum]
        refine Finset.sum_congr rfl fun s _ => ?_
        rw [Finset.mul_sum]
        exact Finset.sum_congr rfl fun t _ => (hpt s t).symm

/-- The Gibbs kernel of the `p = 2` cost (a Gaussian kernel) is positive
semidefinite on any finite point configuration. -/
theorem gaussian_kernel_psd {I : Type} [Fintype I] (c : I → ℝ) (z : I → Point)
    (E : ℝ) (hE : 0 < E) :
    0 ≤ ∑ s, ∑ t, c s * c t * Real.exp (-CostMetric 2 (z s) (z t) / E) := by
  have hdecomp : ∀ s t : I,
      c s * c t * Real.exp (-CostMetric 2 (z s) (z t) / E) =
        (c s * Real.exp (-normSq (z s) / (2 * E))) *
          (c t * Real.exp (-normSq (z t) / (2 * E))) *
          Real.exp (E⁻¹ * dotP (z s) (z t)) := by
    intro s t
    have harg : -CostMetric 2 (z s) (z t) / E =
        -normSq (z s) / (2 * E) + -normSq (z t) / (2 * E) +
          E⁻¹ * dotP (z s) (z t) := by
      rw [CostMetric_two, sqDist_eq]
      field_simp
      ring
    rw [harg, Real.exp_add, Real.exp_add]
    ring
  calc (0:ℝ)
      ≤ ∑ s, ∑ t, (c s * Real.exp (-normSq (z s) / (2 * E))) *
          (c t * Real.exp (-normSq (z t) / (2 * E))) *
          Real.exp (E⁻¹ * dotP (z s) (z t)) :=
        exp_dot_kernel_psd (fun s => c s * Real.exp (-normSq (z s) / (2 * E)))
          z E⁻¹ (inv_nonneg.mpr hE.le)
    _ = ∑ s, ∑ t, c s * c t * Real.exp (-CostMetric 2 (z s) (z t) / E) := by
        refine Finset.sum_congr rfl fun s _ => ?_
        exact Finset.sum_congr rfl fun t _ => (hdecomp s t).symm

theorem CostMetric_comm (p : ℝ) (x y : Point) :
    CostMetric p x y = CostMetric p y x := by
  rw [CostMetric, CostMetric, sqDist_comm]

/-- Tangent-line bound for the exponential (convexity). -/
theorem exp_tangent (x y : ℝ) :
    Real.exp x + Real.exp x * (y - x) ≤ Real.exp y := by
  have h := Real.add_one_le_exp (y - x)
  have h2 : Real.exp x * (y - x + 1) ≤ Real.exp x * Real.exp (y - x) :=
    mul_le_mul_of_nonneg_left h (Real.exp_pos x).le
  rw [← Real.exp_add] at h2
  have hxy : x + (y - x) = y := by ring
  rw [hxy] at h2
  calc Real.exp x + Real.exp x * (y - x) = Real.exp x * (y - x + 1) := by ring
    _ ≤ Real.exp y := h2

/-- Modelled from the spec: the DivergenceEngine value
`OT_ε(α,β) − ½·OT_ε(α,α) − ½·OT_ε(β,β)`, with each `OT_ε` term recovered
from converged potentials through the dual objective `⟨α,f⟩ + ⟨β,g⟩`. -/
noncomputable def sinkhornDivergenceValue {N M : ℕ} (a : Fin N → ℝ)
    (b : Fin M → ℝ) (f : Fin N → ℝ) (g : Fin M → ℝ) (pp : Fin N → ℝ)
    (qq : Fin M → ℝ) : ℝ :=
  OTdualValue a f b g - (1/2) * OTdualValue a pp a pp
    - (1/2) * OTdualValue b qq b qq

/-- C7: at converged (fixed-point) potentials of the cross problem and of
the two symmetric self problems, the debiased Sinkhorn divergence is
nonnegative, and on identical clouds (same potentials on both sides) it is
exactly zero. -/
theorem sinkhorn_divergence_nonneg {N M : ℕ} (E : ℝ) (hE : 0 < E)
    (a : Fin N → ℝ) (b : Fin M → ℝ) (X : Fin N → Point) (Y : Fin M → Point)
    (f : Fin N → ℝ) (g : Fin M → ℝ) (pp : Fin N → ℝ) (qq : Fin M → ℝ)
    (ha : ∀ i, 0 < a i) (hb : ∀ j, 0 < b j)
    (ha1 : ∑ i, a i = 1) (hb1 : ∑ j, b j = 1)
    (hf : ∀ i, f i = softminRow 2 E Y b g (X i))
    (hg : ∀ j, g j = softminRow 2 E X a f (Y j))
    (hp : ∀ i, pp i = softminRow 2 E X a pp (X i))
    (hq : ∀ j, qq j = softminRow 2 E Y b qq (Y j)) :
    0 ≤ sinkhornDivergenceValue a b f g pp qq ∧
      sinkhornDivergenceValue a a pp pp pp pp = 0 := by
  have hzero : sinkhornDivergenceValue a a pp pp pp pp = 0 := by
    simp only [sinkhornDivergenceValue, OTdualValue]
    ring
  refine ⟨?_, hzero⟩
  have hN : 0 < N := by
    rcases Nat.eq_zero_or_pos N with h0 | h
    · exfalso; subst h0; simp at ha1
    · exact h
  have hM : 0 < M := by
    rcases Nat.eq_zero_or_pos M with h0 | h
    · exfalso; subst h0; simp at hb1
    · exact h
  have hrowf : ∀ i, ∑ j,
      Real.exp ((f i + g j - CostMetric 2 (X i) (Y j)) / E) * b j = 1 :=
    fun i => softmin_marginal hM E hE Y b g hb (X i) (f i) (hf i)
  have hcolg : ∀ j, ∑ i,
      Real.exp ((f i + g j - CostMetric 2 (X i) (Y j)) / E) * a i = 1 := by
    intro j
    have h := softmin_marginal hN E hE X a f ha (Y j) (g j) (hg j)
    calc ∑ i, Real.exp ((f i + g j - CostMetric 2 (X i) (Y j)) / E) * a i
        = ∑ i, Real.exp ((g j + f i - CostMetric 2 (Y j) (X i)) / E) * a i := by
          refine Finset.sum_congr rfl fun i _ => ?_
          rw [CostMetric_comm 2 (X i) (Y j)]
          have harg : (f i + g j - CostMetric 2 (Y j) (X i)) / E =
              (g j + f i - CostMetric 2 (Y j) (X i)) / E := by ring
          rw [harg]
      _ = 1 := h
  have hselfa : ∀ i, ∑ i2,
      Real.exp ((pp i + pp i2 - CostMetric 2 (X i) (X i2)) / E) * a i2 = 1 :=
    fun i => softmin_marginal hN E hE X a pp ha (X i) (pp i) (hp i)
  have hselfb : ∀ j, ∑ j2,
      Real.exp ((qq j + qq j2 - CostMetric 2 (Y j) (Y j2)) / E) * b j2 = 1 :=
    fun j => softmin_marginal hM E hE Y b qq hb (Y j) (qq j) (hq j)
  have hsplit3 : ∀ w1 w2 cost : ℝ,
      Real.exp ((w1 + w2 - cost) / E) =
        Real.exp (w1 / E) * Real.exp (w2 / E) * Real.exp (-cost / E) := by
    intro w1 w2 cost
    rw [← Real.exp_add, ← Real.exp_add]
    congr 1
    ring
  set T : ℝ := ∑ i, ∑ j,
      a i * b j * Real.exp ((pp i + qq j - CostMetric 2 (X i) (Y j)) / E)
    with hTdef
  -- the Gibbs marginal masses of the two self problems are 1, so the
  -- Gaussian-kernel Cauchy-Schwarz bound forces T ≤ 1
  have hAA : ∑ i, ∑ i2,
      (a i * Real.exp (pp i / E)) * (a i2 * Real.exp (pp i2 / E)) *
        Real.exp (-CostMetric 2 (X i) (X i2) / E) = 1 := by
    calc ∑ i, ∑ i2, (a i * Real.exp (pp i / E)) * (a i2 * Real.exp (pp i2 / E)) *
          Real.exp (-CostMetric 2 (X i) (X i2) / E)
        = ∑ i, a i * ∑ i2,
            Real.exp ((pp i + pp i2 - CostMetric 2 (X i) (X i2)) / E) * a i2 := by
          refine Finset.sum_congr rfl fun i _ => ?_
          rw [Finset.mul_sum]
          refine Finset.sum_congr rfl fun i2 _ => ?_
          rw [hsplit3]
          ring
      _ = ∑ i, a i := by
          refine Finset.sum_congr rfl fun i _ => ?_
          rw [hselfa i, mul_one]
      _ = 1 := ha1
  have hDD : ∑ j, ∑ j2,
      -(b j * Real.exp (qq j / E)) * -(b j2 * Real.exp (qq j2 / E)) *
        Real.exp (-CostMetric 2 (Y j) (Y j2) / E) = 1 := by
    calc ∑ j, ∑ j2, -(b j * Real.exp (qq j / E)) * -(b j2 * Real.exp (qq j2 / E)) *
          Real.exp (-CostMetric 2 (Y j) (Y j2) / E)
        = ∑ j, b j * ∑ j2,
            Real.exp ((qq j + qq j2 - CostMetric 2 (Y j) (Y j2)) / E) * b j2 := by
          refine Finset.sum_congr rfl fun j _ => ?_
          rw [Finset.mul_sum]
          refine Finset.sum_congr rfl fun j2 _ => ?_
          rw [hsplit3]
          ring
      _ = ∑ j, b j := by
          refine Finset.sum_congr rfl fun j _ => ?_
          rw [hselfb j, mul_one]
      _ = 1 := hb1
  have hAB : ∑ i, ∑ j,
      (a i * Real.exp (pp i / E)) * -(b j * Real.exp (qq j / E)) *
        Real.exp (-CostMetric 2 (X i) (Y j) / E) = -T := by
    rw [hTdef, ← Finset.sum_neg_distrib]
    refine Finset.sum_congr rfl fun i _ => ?_
    rw [← Finset.sum_neg_distrib]
    refine Finset.sum_congr rfl fun j _ => ?_
    rw [hsplit3]
    ring
  have hBA : ∑ j, ∑ i,
      -(b j * Real.exp (qq j / E)) * (a i * Real.exp (pp i / E)) *
        Real.exp (-CostMetric 2 (Y j) (X i) / E) = -T := by
    calc ∑ j, ∑ i, -(b j * Real.exp (qq j / E)) * (a i * Real.exp (pp i / E)) *
          Real.exp (-CostMetric 2 (Y j) (X i) / E)
        = ∑ j, ∑ i, (a i * Real.exp (pp i / E)) * -(b j * Real.exp (qq j / E)) *
            Real.exp (-CostMetric 2 (X i) (Y j) / E) := by
          refine Finset.sum_congr rfl fun j _ => ?_
          refine Finset.sum_congr rfl fun i _ => ?_
          rw [CostMetric_comm 2 (Y j) (X i)]
          ring
      _ = ∑ i, ∑ j, (a i * Real.exp (pp i / E)) * -(b j * Real.exp (qq j / E)) *
            Real.exp (-CostMetric 2 (X i) (Y j) / E) := Finset.sum_comm
      _ = -T := hAB
  have hQ := gaussian_kernel_psd (I := Fin N ⊕ Fin M)
      (Sum.elim (fun i => a i * Real.exp (pp i / E))
        (fun j => -(b j * Real.exp (qq j / E))))
      (Sum.elim X Y) E hE
  simp only [Fintype.sum_sum_type, Sum.elim_inl, Sum.elim_inr] at hQ
  rw [Finset.sum_add_distrib, Finset.sum_add_distrib] at hQ
  rw [hAA, hAB, hBA, hDD] at hQ
  have hT1 : T ≤ 1 := by linarith
  -- concavity of the dual objective: the fixed point dominates (pp, qq)
  set S : ℝ := ∑ i, ∑ j,
      a i * b j * Real.exp ((f i + g j - CostMetric 2 (X i) (Y j)) / E) *
        ((pp i + qq j - f i - g j) / E)
    with hSdef
  have hmass : ∑ i, ∑ j,
      a i * b j * Real.exp ((f i + g j - CostMetric 2 (X i) (Y j)) / E) = 1 := by
    calc ∑ i, ∑ j, a i * b j *
          Real.exp ((f i + g j - CostMetric 2 (X i) (Y j)) / E)
        = ∑ i, a i * ∑ j,
            Real.exp ((f i + g j - CostMetric 2 (X i) (Y j)) / E) * b j := by
          refine Finset.sum_congr rfl fun i _ => ?_
          rw [Finset.mul_sum]
          exact Finset.sum_congr rfl fun j _ => by ring
      _ = ∑ i, a i := by
          refine Finset.sum_congr rfl fun i _ => ?_
          rw [hrowf i, mul_one]
      _ = 1 := ha1
  have hET : 1 + S ≤ T := by
    rw [hSdef, hTdef, ← hmass, ← Finset.sum_add_distrib]
    refine Finset.sum_le_sum fun i _ => ?_
    rw [← Finset.sum_add_distrib]
    refine Finset.sum_le_sum fun j _ => ?_
    have htang := exp_tangent ((f i + g j - CostMetric 2 (X i) (Y j)) / E)
      ((pp i + qq j - CostMetric 2 (X i) (Y j)) / E)
    have hdiff : (pp i + qq j - CostMetric 2 (X i) (Y j)) / E -
        (f i + g j - CostMetric 2 (X i) (Y j)) / E =
        (pp i + qq j - f i - g j) / E := by ring
    rw [hdiff] at htang
    have hab : 0 ≤ a i * b j := (mul_pos (ha i) (hb j)).le
    calc a i * b j * Real.exp ((f i + g j - CostMetric 2 (X i) (Y j)) / E) +
          a i * b j * Real.exp ((f i + g j - CostMetric 2 (X i) (Y j)) / E) *
            ((pp i + qq j - f i - g j) / E)
        = a i * b j *
            (Real.exp ((f i + g j - CostMetric 2 (X i) (Y j)) / E) +
              Real.exp ((f i + g j - CostMetric 2 (X i) (Y j)) / E) *
                ((pp i + qq j - f i - g j) / E)) := by ring
      _ ≤ a i * b j *
            Real.exp ((pp i + qq j - CostMetric 2 (X i) (Y j)) / E) :=
          mul_le_mul_of_nonneg_left htang hab
  have hES : E * S = (∑ i, a i * pp i - ∑ i, a i * f i) +
      (∑ j, b j * qq j - ∑ j, b j * g j) := by
    have hterm : ∀ (i : Fin N) (j : Fin M),
        E * (a i * b j *
            Real.exp ((f i + g j - CostMetric 2 (X i) (Y j)) / E) *
              ((pp i + qq j - f i - g j) / E)) =
          (a i * (pp i - f i)) *
              (Real.exp ((f i + g j - CostMetric 2 (X i) (Y j)) / E) * b j) +
            (b j * (qq j - g j)) *
              (Real.exp ((f i + g j - CostMetric 2 (X i) (Y j)) / E) * a i) := by
      intro i j
      have hcancel : E * ((pp i + qq j - f i - g j) / E) =
          pp i + qq j - f i - g j := by
        field_simp
      calc E * (a i * b j *
            Real.exp ((f i + g j - CostMetric 2 (X i) (Y j)) / E) *
              ((pp i + qq j - f i - g j) / E))
          = (a i * b j *
              Real.exp ((f i + g j - CostMetric 2 (X i) (Y j)) / E)) *
              (E * ((pp i + qq j - f i - g j) / E)) := by ring
        _ = (a i * b j *
              Real.exp ((f i + g j - CostMetric 2 (X i) (Y j)) / E)) *
              (pp i + qq j - f i - g j) := by rw [hcancel]
        _ = (a i * (pp i - f i)) *
              (Real.exp ((f i + g j - CostMetric 2 (X i) (Y j)) / E) * b j) +
            (b j * (qq j - g j)) *
              (Real.exp ((f i + g j - CostMetric 2 (X i) (Y j)) / E) * a i) := by
            ring
    calc E * S
        = ∑ i, ∑ j, ((a i * (pp i - f i)) *
              (Real.exp ((f i + g j - CostMetric 2 (X i) (Y j)) / E) * b j) +
            (b j * (qq j - g j)) *
              (Real.exp ((f i + g j - CostMetric 2 (X i) (Y j)) / E) * a i)) := by
          rw [hSdef, Finset.mul_sum]
          refine Finset.sum_congr rfl fun i _ => ?_
          rw [Finset.mul_sum]
          exact Finset.sum_congr rfl fun j _ => hterm i j
      _ = (∑ i, ∑ j, (a i * (pp i - f i)) *
              (Real.exp ((f i + g j - CostMetric 2 (X i) (Y j)) / E) * b j)) +
            ∑ i, ∑ j, (b j * (qq j - g j)) *
              (Real.exp ((f i + g j - CostMetric 2 (X i) (Y j)) / E) * a i) := by
          rw [← Finset.sum_add_distrib]
          exact Finset.sum_congr rfl fun i _ => Finset.sum_add_distrib
      _ = (∑ i, a i * (pp i - f i)) + ∑ j, b j * (qq j - g j) := by
          congr 1
          · refine Finset.sum_congr rfl fun i _ => ?_
            rw [← Finset.mul_sum, hrowf i, mul_one]
          · rw [Finset.sum_comm]
            refine Finset.sum_congr rfl fun j _ => ?_
            rw [← Finset.mul_sum, hcolg j, mul_one]
      _ = (∑ i, a i * pp i - ∑ i, a i * f i) +
            (∑ j, b j * qq j - ∑ j, b j * g j) := by
          rw [← Finset.sum_sub_distrib, ← Finset.sum_sub_distrib]
          congr 1
          · exact Finset.sum_congr rfl fun i _ => by ring
          · exact Finset.sum_congr rfl fun j _ => by ring
  have hS1 : S ≤ T - 1 := by linarith
  have hES0 : E * S ≤ 0 := by
    have h1 : E * S ≤ E * (T - 1) := mul_le_mul_of_nonneg_left hS1 hE.le
    have h2 : E * (T - 1) ≤ 0 := mul_nonpos_of_nonneg_of_nonpos hE.le (by linarith)
    linarith
  simp only [sinkhornDivergenceValue, OTdualValue]
  rw [hES] at hES0
  linarith

/-- Witness for C7 at a concrete one-point configuration with converged
zero potentials. -/
theorem sinkhorn_divergence_nonneg_witness :
    (0:ℝ) < 1 ∧
      0 ≤ sinkhornDivergenceValue (fun _ : Fin 1 => (1:ℝ))
          (fun _ : Fin 1 => (1:ℝ)) (fun _ => 0) (fun _ => 0) (fun _ => 0)
          (fun _ => 0) := by
  have hcost : CostMetric 2 ((0:ℝ), (0:ℝ)) ((0:ℝ), (0:ℝ)) = 0 := by
    rw [CostMetric_two]
    norm_num [sqDist]
  have hfix : ∀ i : Fin 1, (fun _ : Fin 1 => (0:ℝ)) i =
      softminRow 2 1 (fun _ : Fin 1 => ((0:ℝ), (0:ℝ))) (fun _ => 1)
        (fun _ => 0) ((fun _ : Fin 1 => ((0:ℝ), (0:ℝ))) i) := by
    intro i
    rw [softminRow_single 2 1 one_ne_zero, hcost]
    norm_num
  exact ⟨by norm_num,
    (sinkhorn_divergence_nonneg 1 (by norm_num) (fun _ => 1) (fun _ => 1)
      (fun _ => ((0:ℝ), (0:ℝ))) (fun _ => ((0:ℝ), (0:ℝ))) (fun _ => 0)
      (fun _ => 0) (fun _ => 0) (fun _ => 0) (fun _ => by norm_num)
      (fun _ => by norm_num) (by simp) (by simp) hfix hfix hfix hfix).1⟩

end GeomLoss
